import Mathlib

/-!
Verification of the local-filesystem backend of the rustreader document viewer
(`src/src-tauri/src/lib.rs`).

The Rust source is shallowly embedded as follows.

* Rust `String`/`&str` values are Lean `String`s.  Rust string primitives that
  the source uses are re-modelled as small executable Lean functions over
  `String.data` (`trimStr` for `str::trim`, `toLowerStr` for
  `str::to_lowercase`, `endsWithStr` for `str::ends_with`, `stripPrefixStr`
  for `str::strip_prefix`, `splitNlAux`/`rustLines` for `str::lines`,
  `joinNl` for `[String]::join("\n")`, `rustReplaceBackslash` for
  `str::replace('\\', "/")`).  `to_lowercase` and `trim` are modelled
  per-`Char` (`Char.toLower`, `Char.isWhitespace`), which agrees with Rust on
  ASCII input; the supported extensions and the whitespace relevant to the
  claims are all ASCII.  Rust compares strings bytewise on UTF-8, which
  coincides with the codepoint-wise order used by Lean's `String` order.

* The filesystem seen by one scan is an inductive tree `FSEntry`
  (`file`/`dir`/`other`, where `other` stands for an entry that is neither a
  regular file nor a directory, or whose type could not be determined — the
  `continue` branches of the source).  Iteration order of `read_dir` is the
  list order, which the theorems quantify over.  A directory that fails to
  list behaves exactly like one that lists no entries in the source (both
  just increment `scanned_dirs` and move on), so unreadable directories are
  represented by `dir` nodes with an empty entry list.

* The `last_emit.elapsed() >= emit_interval` checks on the monotonic clock
  are modelled by a Boolean oracle `Nat → Bool` consulted once per check (the
  `tick` counter indexes the checks); quantifying over all oracles covers
  every possible timing.  `emit` is modelled by appending to an event list.

* `u64::saturating_add` is `satAdd` (`Nat` capped at `2 ^ 64 - 1`).

* The persisted recent-paths file is `Option String` (`none` = file absent,
  matching the `ErrorKind::NotFound => empty list` branch); writing is
  modelled by returning the new content.  I/O failures and the
  temp-file-rename mechanics are outside the state modelled here.

* The persisted config file is `Option AppConfig`: the serde_json
  serialization layer is modelled as faithful storage (save stores the
  value, load retrieves it; a missing or blank file yields the all-`none`
  default).

* `scan_path` runs against an abstract `SysWorld` providing `canonicalize`,
  `is_dir`, `is_file`, `file_name` and directory listings; its best-effort
  recent-recording side effect (whose result the source discards with
  `let _ = ...`) does not influence the returned value and is not part of
  the returned value here either.
-/

namespace Rustreader

/-! ## String primitives modelled from Rust -/

/-- Model of `str::trim` on the leading side: drop leading whitespace. -/
def dropLeadingWS (l : List Char) : List Char := l.dropWhile Char.isWhitespace

/-- Model of `str::trim` on the trailing side: drop trailing whitespace. -/
def dropTrailingWS : List Char → List Char
  | [] => []
  | c :: rest =>
    let r := dropTrailingWS rest
    if r.isEmpty then (if c.isWhitespace then [] else [c]) else c :: r

/-- Characters of `str::trim`: leading and trailing whitespace removed. -/
def trimChars (l : List Char) : List Char := dropTrailingWS (dropLeadingWS l)

/-- Model of `str::trim`. -/
def trimStr (s : String) : String := ⟨trimChars s.data⟩

/-- Model of `str::to_lowercase` (per-char; agrees with Rust on ASCII). -/
def toLowerStr (s : String) : String := ⟨s.data.map Char.toLower⟩

/-- Model of `str::ends_with` for a string pattern. -/
def endsWithStr (s pat : String) : Bool := pat.data.isSuffixOf s.data

/-- Model of `str::strip_prefix` for a string pattern. -/
def stripPrefixStr (s pat : String) : Option String :=
  if pat.data.isPrefixOf s.data then some (String.mk (s.data.drop pat.data.length)) else none

/-! ## FileClassifier (`categorize_file`, lib.rs:325-348) -/

/-- Chars after the last `'.'` of the list, provided a later-than-first
position holds a dot; used by `rustExtension`. -/
def afterLastDot : List Char → Option (List Char)
  | [] => none
  | c :: rest =>
    match afterLastDot rest with
    | some e => some e
    | none => if c = '.' then some rest else none

/-- Model of `Path::extension` on a file name: the portion after the last
`'.'`, where a dot in first position does not count (`.bashrc` has no
extension).  The input is the path's final file-name component, so the
`.`/`..` special components never occur. -/
def rustExtension (s : String) : Option String :=
  match s.data with
  | [] => none
  | _ :: rest => (afterLastDot rest).map String.mk

def catMindmap : String := "mindmap"
def catMarpit : String := "marpit"
def catImages : String := "images"
def catVideo : String := "video"
def catAudio : String := "audio"
def catMarkdown : String := "markdown"
def catDrawio : String := "drawio"
def catPdf : String := "pdf"
def catWord : String := "word"
def catExcel : String := "excel"
def catText : String := "text"
def catSlides : String := "slides"
def extMmMd : String := ".mm.md"
def extPptMd : String := ".ppt.md"

/-- Embedding of the `match ext.as_str()` extension dispatch of
`categorize_file` (lib.rs:335-347); each `if` embeds one `|`-grouped arm,
in source order. -/
def extCategory (ext : String) : Option String :=
  if ext = "png" ∨ ext = "jpg" ∨ ext = "jpeg" ∨ ext = "gif" ∨ ext = "webp" then some catImages
  else if ext = "mp4" ∨ ext = "webm" ∨ ext = "ogv" ∨ ext = "m4v" then some catVideo
  else if ext = "mp3" ∨ ext = "wav" ∨ ext = "m4a" ∨ ext = "ogg" ∨ ext = "oga" ∨ ext = "flac" ∨ ext = "aac" then some catAudio
  else if ext = "md" ∨ ext = "markdown" then some catMarkdown
  else if ext = "drawio" then some catDrawio
  else if ext = "pdf" then some catPdf
  else if ext = "docx" then some catWord
  else if ext = "xlsx" then some catExcel
  else if ext = "txt" then some catText
  else if ext = "pptx" then some catSlides
  else none

/-- Embedding of `categorize_file` (lib.rs:325-348), applied to the path's
file-name component (the `path.file_name()?` of the source). -/
def categorize_file (name : String) : Option String :=
  let nameLower := toLowerStr name
  if endsWithStr nameLower extMmMd then some catMindmap
  else if endsWithStr nameLower extPptMd then some catMarpit
  else
    match rustExtension name with
    | none => none
    | some ext => extCategory (toLowerStr ext)

/-- The extensions recognized by the dispatch table, lower-cased. -/
def extIsKnown (e : String) : Prop :=
  e = "png" ∨ e = "jpg" ∨ e = "jpeg" ∨ e = "gif" ∨ e = "webp" ∨
  e = "mp4" ∨ e = "webm" ∨ e = "ogv" ∨ e = "m4v" ∨
  e = "mp3" ∨ e = "wav" ∨ e = "m4a" ∨ e = "ogg" ∨ e = "oga" ∨ e = "flac" ∨ e = "aac" ∨
  e = "md" ∨ e = "markdown" ∨ e = "drawio" ∨ e = "pdf" ∨
  e = "docx" ∨ e = "xlsx" ∨ e = "txt" ∨ e = "pptx"

instance (e : String) : Decidable (extIsKnown e) := by
  unfold extIsKnown; infer_instance

/-! ## ConfigStore (`load_config_from_disk`, `save_app_config`,
lib.rs:178-196 and 676-686) -/

/-- `AppConfig` (lib.rs:14-21): two optional preferences. -/
structure AppConfig where
  language : Option String
  font_size_px : Option Nat
deriving DecidableEq

/-- Model of `load_config_from_disk` (lib.rs:178-196): a missing (or blank)
file yields the all-unset default; stored configs are returned as stored
(the serde_json round trip is modelled as faithful storage). -/
def load_config_from_disk (disk : Option AppConfig) : AppConfig :=
  disk.getD ⟨none, none⟩

/-- Model of `save_app_config` (lib.rs:676-686): read-merge-write; each field
of the merged config is overwritten exactly when present in the argument. -/
def save_app_config (disk : Option AppConfig) (config : AppConfig) : Option AppConfig :=
  let merged := load_config_from_disk disk
  let merged := ⟨if config.language.isSome then config.language else merged.language,
                 if config.font_size_px.isSome then config.font_size_px else merged.font_size_px⟩
  some merged

/-! ## RecentStore (lib.rs:87-160 and 688-698) -/

def RECENT_LIMIT_DEFAULT : Nat := 20

/-- The two `replace` calls of `sanitize_recent_entry`: delete `'\n'` and
`'\r'` characters. -/
def stripNlCr (l : List Char) : List Char :=
  (l.filter (fun c => c != '\n')).filter (fun c => c != '\r')

/-- Embedding of `sanitize_recent_entry` (lib.rs:87-97). -/
def sanitize_recent_entry (s : String) : Option String :=
  let v := trimStr s
  if v.data.isEmpty then none
  else
    let w := trimStr (String.mk (stripNlCr v.data))
    if w.data.isEmpty then none else some w

/-- Split at `'\n'`, accumulating the current piece reversed. -/
def splitNlAux : List Char → List Char → List (List Char)
  | [], acc => [acc.reverse]
  | c :: rest, acc =>
    if c = '\n' then acc.reverse :: splitNlAux rest [] else splitNlAux rest (c :: acc)

/-- Strip one trailing `'\r'`, as `str::lines` does per line. -/
def stripTrailingCr (l : List Char) : List Char :=
  if l.getLast? = some '\r' then l.dropLast else l

/-- Model of `str::lines`: split on `'\n'`, drop a final empty piece (a
trailing newline produces no extra line), strip a trailing `'\r'` from each
line. -/
def rustLines (s : String) : List String :=
  let pieces := splitNlAux s.data []
  let pieces := if pieces.getLast? = some [] then pieces.dropLast else pieces
  pieces.map (fun l => String.mk (stripTrailingCr l))

/-- One step of the sanitize-dedup loop of `load_recent_from_disk`
(lib.rs:107-116). -/
def dedupAppend (acc : List String) (line : String) : List String :=
  match sanitize_recent_entry line with
  | none => acc
  | some e => if e ∈ acc then acc else acc ++ [e]

/-- Embedding of `load_recent_from_disk` (lib.rs:99-119); `none` is the
`ErrorKind::NotFound` branch. -/
def load_recent_from_disk (disk : Option String) : List String :=
  match disk with
  | none => []
  | some content => (rustLines content).foldl dedupAppend []

def nlStr : String := "\n"

/-- Model of `[String]::join("\n")`. -/
def joinNl : List String → String
  | [] => ""
  | [e] => e
  | e :: rest => e ++ nlStr ++ joinNl rest

/-- Content written by `save_recent_to_disk` (lib.rs:121-147): entries
joined by newlines plus a final newline, or empty for an empty list.  The
temp-file-then-rename mechanics do not affect the stored content. -/
def save_recent_to_disk (entries : List String) : String :=
  if entries.isEmpty then "" else joinNl entries ++ nlStr

/-- Embedding of `record_recent_path` (lib.rs:149-160), returning the new
persisted content (unchanged when the path sanitizes to nothing, matching
the early `return Ok(())`). -/
def record_recent_path (disk : Option String) (p : String) : Option String :=
  match sanitize_recent_entry p with
  | none => disk
  | some value =>
    let entries := load_recent_from_disk disk
    let entries := entries.filter (fun e => e != value)
    let entries := value :: entries
    let entries := entries.take RECENT_LIMIT_DEFAULT
    some (save_recent_to_disk entries)

/-- Embedding of `get_recent_paths` (lib.rs:688-698).  The
`usize::try_from` of the source cannot fail for `u32` inputs on the 64-bit
hosts targeted, so the limit handling reduces to the zero filter plus
default. -/
def get_recent_paths (disk : Option String) (limit : Option Nat) : List String :=
  let lim := match limit with
    | some v => if 0 < v then v else RECENT_LIMIT_DEFAULT
    | none => RECENT_LIMIT_DEFAULT
  (load_recent_from_disk disk).take lim

/-! ## PathNormalizer (`normalize_file_url_to_path`, lib.rs:500-518) -/

def fileScheme : String := "file://"
def localhostSeg : String := "localhost/"
def slashStr : String := "/"

/-- The drive-letter test of lib.rs:509-511: the source inspects the first
two bytes; on the char level this coincides, because a non-ASCII first char
fails `is_ascii_alphabetic` either way and an ASCII first char makes byte 1
the second char's (only) byte. -/
def isWinDrivePath (s : String) : Bool :=
  match s.data with
  | c0 :: c1 :: _ => c0.isAlpha && c1 == ':'
  | _ => false

/-- Embedding of `normalize_file_url_to_path` (lib.rs:500-518). -/
def normalize_file_url_to_path (raw : String) : String :=
  let value := trimStr raw
  match stripPrefixStr value fileScheme with
  | none => value
  | some without_scheme =>
    let without_host := (stripPrefixStr without_scheme localhostSeg).getD without_scheme
    match stripPrefixStr without_host slashStr with
    | some without_root_slash =>
      if isWinDrivePath without_root_slash then without_root_slash else without_host
    | none => without_host

/-! ## DirectoryScanner (`scan_supported_files`, lib.rs:354-498) -/

/-- One filesystem entry as seen by one `read_dir` listing: a regular file,
a readable directory with its own listing, or anything else (`other`: entry
type unknown or neither file nor directory — the silent `continue`
branches).  A directory whose listing fails behaves in the source exactly
like one with an empty listing, so it is a `dir` with `[]`. -/
inductive FSEntry where
  | file (name : String)
  | dir (name : String) (entries : List FSEntry)
  | other (name : String)

/-- `ScanFile` (lib.rs:34-40). -/
structure ScanFile where
  virtual_path : String
  abs_path : String
  category : String
deriving DecidableEq

/-- `ScanProgressEvent` (lib.rs:23-32). -/
structure ScanEvent where
  scan_id : Option String
  stage : String
  scanned_dirs : Nat
  scanned_files : Nat
  matched_files : Nat
  current_path : String
deriving DecidableEq

/-- The mutable locals of the scan loop: counters, collected files, events
emitted so far, and the index of the next clock check. -/
structure ScanSt where
  scannedDirs : Nat
  scannedFiles : Nat
  matchedFiles : Nat
  files : List ScanFile
  events : List ScanEvent
  tick : Nat

def U64MAX : Nat := 2 ^ 64 - 1

/-- Model of `u64::saturating_add`. -/
def satAdd (a b : Nat) : Nat := min (a + b) U64MAX

def stageStart : String := "start"
def stageProgress : String := "progress"
def stageDone : String := "done"

/-- Absolute path of the entry at components `rel` below `root`, joined with
the host separator (`PathBuf::push` then `to_string_lossy`). -/
def absPathOf (sep : Char) (root : String) (rel : List String) : String :=
  rel.foldl (fun acc nm => acc ++ String.singleton sep ++ nm) root

/-- Display string of the relative path with components `comps`: components
joined by the host separator (`Path::strip_prefix` then
`to_string_lossy`). -/
def relString (sep : Char) : List String → String
  | [] => ""
  | [s] => s
  | s :: rest => s ++ String.singleton sep ++ relString sep rest

def replaceBackslashChar (c : Char) : Char := if c = '\\' then '/' else c

/-- Model of `str::replace('\\', "/")`: a char pattern replaced by a
one-char string is a per-char map. -/
def rustReplaceBackslash (s : String) : String :=
  String.mk (s.data.map replaceBackslashChar)

def mkProgressEvent (scanId : Option String) (st : ScanSt) (path : String) : ScanEvent :=
  ⟨scanId, stageProgress, st.scannedDirs, st.scannedFiles, st.matchedFiles, path⟩

/-- One `last_emit.elapsed() >= emit_interval` checkpoint of the source: the
oracle (indexed by the running check counter `tick`) answers the clock
comparison; on `true` a `progress` event is emitted. -/
def checkpoint (oracle : Nat → Bool) (scanId : Option String) (st : ScanSt) (path : String) : ScanSt :=
  if oracle st.tick then
    ⟨st.scannedDirs, st.scannedFiles, st.matchedFiles, st.files,
      st.events ++ [mkProgressEvent scanId st path], st.tick + 1⟩
  else
    ⟨st.scannedDirs, st.scannedFiles, st.matchedFiles, st.files, st.events, st.tick + 1⟩

/-- Bookkeeping when the loop pops a directory off the work stack
(lib.rs:380-395): increment `scanned_dirs`, then a checkpoint naming the
directory. -/
def popBook (oracle : Nat → Bool) (scanId : Option String) (sep : Char) (root : String)
    (rel : List String) (st : ScanSt) : ScanSt :=
  let st1 : ScanSt := ⟨satAdd st.scannedDirs 1, st.scannedFiles, st.matchedFiles,
    st.files, st.events, st.tick⟩
  checkpoint oracle scanId st1 (absPathOf sep root rel)

mutual

/-- Termination weight of one tree entry. -/
def entryWeight : FSEntry → Nat
  | .file _ => 1
  | .other _ => 1
  | .dir _ es => 2 + entriesWeight es

/-- Termination weight of a listing. -/
def entriesWeight : List FSEntry → Nat
  | [] => 0
  | e :: rest => entryWeight e + entriesWeight rest

end

/-- Termination weight of the work stack. -/
def stackWeight : List (List String × List FSEntry) → Nat
  | [] => 0
  | (_, es) :: rest => 1 + entriesWeight es + stackWeight rest

/-- The `while let Some(dir) = stack.pop()` loop of `scan_supported_files`
(lib.rs:380-482) together with its inner `for entry in entries` loop:
`rel`/`entries` are the components and remaining listing of the directory
currently being iterated, `stack` the pending directories (top = most
recently pushed, matching `Vec::push`/`Vec::pop`), `st` the mutable state.
Exhausting the current listing pops the next directory (with its
`scanned_dirs`-increment-plus-checkpoint bookkeeping); a subdirectory entry
gets a checkpoint and is pushed; an `other` entry is skipped silently; a
file entry bumps `scanned_files`, is classified, and either only produces a
checkpoint (category `None`) or bumps `matched_files`, appends the
`ScanFile` with its backslash-rewritten root-relative `virtual_path`, and
produces a checkpoint. -/
def scanDir (oracle : Nat → Bool) (scanId : Option String) (sep : Char) (root : String) :
    List String → List FSEntry → List (List String × List FSEntry) → ScanSt → ScanSt
  | _, [], [], st => st
  | _, [], (rel2, es2) :: stack, st =>
    scanDir oracle scanId sep root rel2 es2 stack (popBook oracle scanId sep root rel2 st)
  | rel, .dir nm es :: rest, stack, st =>
    let st1 := checkpoint oracle scanId st (absPathOf sep root (rel ++ [nm]))
    scanDir oracle scanId sep root rel rest ((rel ++ [nm], es) :: stack) st1
  | rel, .other _ :: rest, stack, st =>
    scanDir oracle scanId sep root rel rest stack st
  | rel, .file nm :: rest, stack, st =>
    let st1 : ScanSt := ⟨st.scannedDirs, satAdd st.scannedFiles 1, st.matchedFiles,
      st.files, st.events, st.tick⟩
    match categorize_file nm with
    | none =>
      scanDir oracle scanId sep root rel rest stack
        (checkpoint oracle scanId st1 (absPathOf sep root (rel ++ [nm])))
    | some cat =>
      let st2 : ScanSt := ⟨st1.scannedDirs, st1.scannedFiles, satAdd st1.matchedFiles 1,
        st1.files, st1.events, st1.tick⟩
      let vp := rustReplaceBackslash (relString sep (rel ++ [nm]))
      let ap := absPathOf sep root (rel ++ [nm])
      let st3 : ScanSt := ⟨st2.scannedDirs, st2.scannedFiles, st2.matchedFiles,
        st2.files ++ [⟨vp, ap, cat⟩], st2.events, st2.tick⟩
      scanDir oracle scanId sep root rel rest stack (checkpoint oracle scanId st3 ap)
termination_by _ es stack _ => entriesWeight es + stackWeight stack
decreasing_by
  all_goals simp [entriesWeight, entryWeight, stackWeight]
  all_goals omega

/-- The ordering key of the final `files.sort_by` (lib.rs:496). -/
def vpLe (a b : ScanFile) : Prop := a.virtual_path ≤ b.virtual_path

instance : DecidableRel vpLe := fun a b =>
  inferInstanceAs (Decidable (a.virtual_path ≤ b.virtual_path))

instance : IsTotal ScanFile vpLe := ⟨fun a b => le_total a.virtual_path b.virtual_path⟩

instance : IsTrans ScanFile vpLe := ⟨fun _ _ _ h1 h2 => le_trans h1 h2⟩

/-- Embedding of `scan_supported_files` (lib.rs:354-498): `start` event,
stack-driven walk seeded with the root, `done` event, then a stable sort of
the collected files by `virtual_path` (the source's stable `sort_by` is
modelled by insertion sort, which is also stable).  Returns the sorted
files and the emitted event trace. -/
def scan_supported_files (oracle : Nat → Bool) (sep : Char) (scanId : Option String)
    (root : String) (rootEntries : List FSEntry) : List ScanFile × List ScanEvent :=
  let st0 : ScanSt := ⟨0, 0, 0, [], [⟨scanId, stageStart, 0, 0, 0, root⟩], 0⟩
  let stF := scanDir oracle scanId sep root [] [] [([], rootEntries)] st0
  let events := stF.events ++ [⟨scanId, stageDone, stF.scannedDirs, stF.scannedFiles, stF.matchedFiles, root⟩]
  (List.insertionSort vpLe stF.files, events)

/-! ## ScanOrchestrator (`scan_path`, lib.rs:539-593) -/

/-- `ScanResult` (lib.rs:42-48). -/
structure ScanResultM where
  root : String
  label : String
  files : List ScanFile
deriving DecidableEq

/-- The host facilities `scan_path` consults: `Path::canonicalize` (`none` =
error), `is_dir`, `is_file`, `file_name`, the directory listing used by the
scanner, the host separator, and the scanner's clock oracle. -/
structure SysWorld where
  canonicalize : String → Option String
  isDir : String → Bool
  isFile : String → Bool
  fileNameOf : String → Option String
  entriesOf : String → List FSEntry
  sep : Char
  oracle : Nat → Bool

def errCanon : String := "路径不存在或无法访问"
def errUnsupported : String := "不支持打开该文件类型（仅支持可预览的文件扩展名）"
def errNotFileOrDir : String := "路径不是文件或文件夹"

/-- Embedding of the `scan_path` command (lib.rs:539-593).  The best-effort
`record_recent_path` side effect is discarded by the source (`let _ = ...`)
and does not influence the returned value, so it is not part of the value
modelled here. -/
def scan_path (w : SysWorld) (path : String) (scanId : Option String) :
    Except String (Option ScanResultM) :=
  let raw := trimStr path
  if raw.data.isEmpty then Except.ok none
  else
    let raw2 := normalize_file_url_to_path raw
    match w.canonicalize raw2 with
    | none => Except.error errCanon
    | some absPath =>
      if w.isDir absPath then
        let label := (w.fileNameOf absPath).getD absPath
        Except.ok (some ⟨absPath, label,
          (scan_supported_files w.oracle w.sep scanId absPath (w.entriesOf absPath)).1⟩)
      else if w.isFile absPath then
        match (w.fileNameOf absPath).bind categorize_file with
        | none => Except.error errUnsupported
        | some category =>
          let vp := (w.fileNameOf absPath).getD absPath
          Except.ok (some ⟨absPath, vp, [⟨vp, absPath, category⟩]⟩)
      else Except.error errNotFileOrDir

/-! ## Concrete inputs used by witnesses and counterexamples -/

def nameMarpitMixed : String := "X.PpT.Md"
def pathWithSpace : String := "/a "
def pathSlashA : String := "/a"
def rawPadded : String := " a"
def pathPlain : String := "/etc/x"
def fileUrlWinDrive : String := "file:///C:/x"
def winDrivePath : String := "C:/x"
def fileUrlPosix : String := "file:///home/a%20b"
def posixPath : String := "/home/a%20b"
def langEn : String := "en"
def blankPath : String := "  "
def oracleNever : Nat → Bool := fun _ => false
def rootR : String := "r"
def fileAMd : String := "a.md"
def treeOneMd : List FSEntry := [FSEntry.file fileAMd]

/-- A world in which nothing canonicalizes; used to witness the blank-input
short circuit of `scan_path`. -/
def trivialWorld : SysWorld :=
  ⟨fun _ => none, fun _ => false, fun _ => false, fun _ => none, fun _ => [], '/', fun _ => false⟩

/-! ## Predicates used by the scanner claims -/

/-- The string contains no backslash. -/
def noBackslashStr (s : String) : Prop := ∀ c ∈ s.data, c ≠ '\\'

/-- The string is a nonempty list of backslash-free components joined by
`/` — i.e. it uses `/` as its separator. -/
def usesSlashSep (s : String) : Prop :=
  ∃ comps : List String, comps ≠ [] ∧ s = relString '/' comps ∧ ∀ x ∈ comps, noBackslashStr x

/-- Between two scanner states, only `progress` events were appended. -/
def ProgressOnly (a b : ScanSt) : Prop :=
  ∃ l, b.events = a.events ++ l ∧ ∀ e ∈ l, e.stage = stageProgress

/-- Between two scanner states, only files whose `virtual_path` is the
backslash-rewrite of a separator-joined nonempty component list were
appended. -/
def GoodFiles (sep : Char) (a b : ScanSt) : Prop :=
  ∃ l, b.files = a.files ++ l ∧
    ∀ f ∈ l, ∃ comps : List String, comps ≠ [] ∧
      f.virtual_path = rustReplaceBackslash (relString sep comps)

/-! # Theorems -/

/-! ## FileClassifier -/

/-- Full case analysis of the extension dispatch table `extCategory`. -/
theorem extCategory_cases (s : String) :
    ((s = "png" ∨ s = "jpg" ∨ s = "jpeg" ∨ s = "gif" ∨ s = "webp") → extCategory s = some catImages) ∧
    ((s = "mp4" ∨ s = "webm" ∨ s = "ogv" ∨ s = "m4v") → extCategory s = some catVideo) ∧
    ((s = "mp3" ∨ s = "wav" ∨ s = "m4a" ∨ s = "ogg" ∨ s = "oga" ∨ s = "flac" ∨ s = "aac") → extCategory s = some catAudio) ∧
    ((s = "md" ∨ s = "markdown") → extCategory s = some catMarkdown) ∧
    (s = "drawio" → extCategory s = some catDrawio) ∧
    (s = "pdf" → extCategory s = some catPdf) ∧
    (s = "docx" → extCategory s = some catWord) ∧
    (s = "xlsx" → extCategory s = some catExcel) ∧
    (s = "txt" → extCategory s = some catText) ∧
    (s = "pptx" → extCategory s = some catSlides) ∧
    (¬ extIsKnown s → extCategory s = none) := by
  refine ⟨?_, ?_, ?_, ?_, ?_, ?_, ?_, ?_, ?_, ?_, ?_⟩
  · rintro (h | h | h | h | h) <;> subst h <;> decide
  · rintro (h | h | h | h) <;> subst h <;> decide
  · rintro (h | h | h | h | h | h | h) <;> subst h <;> decide
  · rintro (h | h) <;> subst h <;> decide
  · rintro h; subst h; decide
  · rintro h; subst h; decide
  · rintro h; subst h; decide
  · rintro h; subst h; decide
  · rintro h; subst h; decide
  · rintro h; subst h; decide
  · intro h
    unfold extIsKnown at h
    push_neg at h
    obtain ⟨h1, h2, h3, h4, h5, h6, h7, h8, h9, h10, h11, h12, h13, h14, h15, h16, h17,
      h18, h19, h20, h21, h22, h23, h24⟩ := h
    simp [extCategory, h1, h2, h3, h4, h5, h6, h7, h8, h9, h10, h11, h12, h13, h14, h15,
      h16, h17, h18, h19, h20, h21, h22, h23, h24]

/-- C2: for every file name, `categorize_file` returns `mindmap` when the
lower-cased name ends in `.mm.md`, else `marpit` when it ends in `.ppt.md`,
else the documented category for its lower-cased extension
(png/jpg/jpeg/gif/webp→images, mp4/webm/ogv/m4v→video,
mp3/wav/m4a/ogg/oga/flac/aac→audio, md/markdown→markdown, drawio→drawio,
pdf→pdf, docx→word, xlsx→excel, txt→text, pptx→slides), and `none`
(unsupported) for every unrecognized or missing extension. -/
theorem categorize_file_spec (name : String) :
    (endsWithStr (toLowerStr name) extMmMd = true → categorize_file name = some catMindmap) ∧
    (endsWithStr (toLowerStr name) extMmMd = false →
      endsWithStr (toLowerStr name) extPptMd = true → categorize_file name = some catMarpit) ∧
    (endsWithStr (toLowerStr name) extMmMd = false →
      endsWithStr (toLowerStr name) extPptMd = false →
      (rustExtension name = none → categorize_file name = none) ∧
      ∀ e, rustExtension name = some e →
        ((toLowerStr e = "png" ∨ toLowerStr e = "jpg" ∨ toLowerStr e = "jpeg" ∨ toLowerStr e = "gif" ∨ toLowerStr e = "webp") → categorize_file name = some catImages) ∧
        ((toLowerStr e = "mp4" ∨ toLowerStr e = "webm" ∨ toLowerStr e = "ogv" ∨ toLowerStr e = "m4v") → categorize_file name = some catVideo) ∧
        ((toLowerStr e = "mp3" ∨ toLowerStr e = "wav" ∨ toLowerStr e = "m4a" ∨ toLowerStr e = "ogg" ∨ toLowerStr e = "oga" ∨ toLowerStr e = "flac" ∨ toLowerStr e = "aac") → categorize_file name = some catAudio) ∧
        ((toLowerStr e = "md" ∨ toLowerStr e = "markdown") → categorize_file name = some catMarkdown) ∧
        (toLowerStr e = "drawio" → categorize_file name = some catDrawio) ∧
        (toLowerStr e = "pdf" → categorize_file name = some catPdf) ∧
        (toLowerStr e = "docx" → categorize_file name = some catWord) ∧
        (toLowerStr e = "xlsx" → categorize_file name = some catExcel) ∧
        (toLowerStr e = "txt" → categorize_file name = some catText) ∧
        (toLowerStr e = "pptx" → categorize_file name = some catSlides) ∧
        (¬ extIsKnown (toLowerStr e) → categorize_file name = none)) := by
  refine ⟨?_, ?_, ?_⟩
  · intro h; simp [categorize_file, h]
  · intro h1 h2; simp [categorize_file, h1, h2]
  · intro h1 h2
    constructor
    · intro he; simp [categorize_file, h1, h2, he]
    · intro e he
      have hc : categorize_file name = extCategory (toLowerStr e) := by
        simp [categorize_file, h1, h2, he]
      rw [hc]
      exact extCategory_cases (toLowerStr e)

/-- Witness for the C2 theorem at the mixed-case name `X.PpT.Md`. -/
theorem categorize_file_spec_witness :
    (endsWithStr (toLowerStr nameMarpitMixed) extMmMd = false ∧
     endsWithStr (toLowerStr nameMarpitMixed) extPptMd = true) ∧
    categorize_file nameMarpitMixed = some catMarpit :=
  ⟨⟨by decide, by decide⟩, (categorize_file_spec nameMarpitMixed).2.1 (by decide) (by decide)⟩

/-! ## ConfigStore -/

/-- C6: saving the partial config that only sets `fontSizePx` to 18 leaves a
previously persisted `language` unchanged while updating `fontSizePx`; in
general `save_app_config` overwrites exactly the fields present in its
argument and leaves absent fields untouched. -/
theorem save_app_config_merge (disk : Option AppConfig) (lang : String) (c : AppConfig)
    (h : (load_config_from_disk disk).language = some lang) :
    (load_config_from_disk (save_app_config disk ⟨none, some 18⟩)).language = some lang ∧
    (load_config_from_disk (save_app_config disk ⟨none, some 18⟩)).font_size_px = some 18 ∧
    (c.language = none →
      (load_config_from_disk (save_app_config disk c)).language = (load_config_from_disk disk).language) ∧
    (c.font_size_px = none →
      (load_config_from_disk (save_app_config disk c)).font_size_px = (load_config_from_disk disk).font_size_px) := by
  refine ⟨?_, ?_, ?_, ?_⟩
  · simpa [save_app_config, load_config_from_disk] using h
  · simp [save_app_config, load_config_from_disk]
  · intro hc; simp [save_app_config, load_config_from_disk, hc]
  · intro hc; simp [save_app_config, load_config_from_disk, hc]

/-- Witness for the C6 theorem: a persisted `language := en`, updated with
`fontSizePx := 18` only. -/
theorem save_app_config_merge_witness :
    (load_config_from_disk (some ⟨some langEn, none⟩)).language = some langEn ∧
    (load_config_from_disk (save_app_config (some ⟨some langEn, none⟩) ⟨none, some 18⟩)).language = some langEn ∧
    (load_config_from_disk (save_app_config (some ⟨some langEn, none⟩) ⟨none, some 18⟩)).font_size_px = some 18 :=
  ⟨rfl, (save_app_config_merge (some ⟨some langEn, none⟩) langEn ⟨none, none⟩ rfl).1,
    (save_app_config_merge (some ⟨some langEn, none⟩) langEn ⟨none, none⟩ rfl).2.1⟩

/-- C7: `save_app_config` then `load_config_from_disk` returns the saved
value on every field the argument explicitly set. -/
theorem save_app_config_roundtrip (disk : Option AppConfig) (cfg : AppConfig) :
    (cfg.language.isSome = true →
      (load_config_from_disk (save_app_config disk cfg)).language = cfg.language) ∧
    (cfg.font_size_px.isSome = true →
      (load_config_from_disk (save_app_config disk cfg)).font_size_px = cfg.font_size_px) := by
  constructor <;> intro h <;> simp [save_app_config, load_config_from_disk, h]

/-- Witness for the C7 theorem at a fully set config saved over an empty
store. -/
theorem save_app_config_roundtrip_witness :
    ((⟨some langEn, some 16⟩ : AppConfig).language.isSome = true) ∧
    (load_config_from_disk (save_app_config none ⟨some langEn, some 16⟩)).language = some langEn :=
  ⟨rfl, (save_app_config_roundtrip none ⟨some langEn, some 16⟩).1 rfl⟩

/-! ## RecentStore: limit defaulting -/

/-- C10: `get_recent_paths` with an absent limit or a limit of 0 behaves as
if the default limit 20 were supplied, returning up to 20 entries. -/
theorem get_recent_paths_default (disk : Option String) :
    get_recent_paths disk none = (load_recent_from_disk disk).take RECENT_LIMIT_DEFAULT ∧
    get_recent_paths disk (some 0) = (load_recent_from_disk disk).take RECENT_LIMIT_DEFAULT ∧
    get_recent_paths disk none = get_recent_paths disk (some RECENT_LIMIT_DEFAULT) ∧
    (get_recent_paths disk none).length ≤ RECENT_LIMIT_DEFAULT := by
  refine ⟨rfl, by simp [get_recent_paths], ?_, ?_⟩
  · simp [get_recent_paths, RECENT_LIMIT_DEFAULT]
  · simp [get_recent_paths]

/-! ## PathNormalizer -/

/-- Counterexample to C8 as stated: `normalize_file_url_to_path` trims its
input first (lib.rs:501), so the input `" a"` — which does not begin with
the `file://` scheme — is returned as `"a"`, not unchanged. -/
theorem normalize_unchanged_claim_fails :
    (stripPrefixStr rawPadded fileScheme).isNone = true ∧
    normalize_file_url_to_path rawPadded ≠ rawPadded := by
  exact ⟨by decide, by decide⟩

/-- C8 (amended): for every input equal to its own trim, an input that does
not begin with `file://` is returned unchanged; otherwise the scheme is
stripped, an optional `localhost/` host segment is stripped, and a leading
`/` is stripped exactly when what follows it matches the drive-letter
pattern (ASCII letter then `:`); `file:///C:/x` normalizes to `C:/x` and
`file:///home/a%20b` to `/home/a%20b` with no percent-decoding.  (For
general inputs the source applies these rules to the trimmed input.) -/
theorem normalize_file_url_spec (raw : String) (htrim : trimStr raw = raw) :
    (stripPrefixStr raw fileScheme = none → normalize_file_url_to_path raw = raw) ∧
    (∀ rest, stripPrefixStr raw fileScheme = some rest →
      (∀ tail2, stripPrefixStr ((stripPrefixStr rest localhostSeg).getD rest) slashStr = some tail2 →
        (isWinDrivePath tail2 = true → normalize_file_url_to_path raw = tail2) ∧
        (isWinDrivePath tail2 = false →
          normalize_file_url_to_path raw = (stripPrefixStr rest localhostSeg).getD rest)) ∧
      (stripPrefixStr ((stripPrefixStr rest localhostSeg).getD rest) slashStr = none →
        normalize_file_url_to_path raw = (stripPrefixStr rest localhostSeg).getD rest)) ∧
    normalize_file_url_to_path fileUrlWinDrive = winDrivePath ∧
    normalize_file_url_to_path fileUrlPosix = posixPath := by
  refine ⟨?_, ?_, by decide, by decide⟩
  · intro h; simp [normalize_file_url_to_path, htrim, h]
  · intro rest h
    refine ⟨?_, ?_⟩
    · intro tail2 h2
      constructor
      · intro hw; simp [normalize_file_url_to_path, htrim, h, h2, hw]
      · intro hw; simp [normalize_file_url_to_path, htrim, h, h2, hw]
    · intro h2; simp [normalize_file_url_to_path, htrim, h, h2]

/-- Witness for the C8 theorem at the plain path `/etc/x` (no scheme). -/
theorem normalize_file_url_spec_witness :
    (trimStr pathPlain = pathPlain ∧ stripPrefixStr pathPlain fileScheme = none) ∧
    normalize_file_url_to_path pathPlain = pathPlain :=
  ⟨⟨by decide, by decide⟩, (normalize_file_url_spec pathPlain (by decide)).1 (by decide)⟩

/-! ## ScanOrchestrator: blank input -/

/-- C9: an input that is empty or all whitespace makes `scan_path` return a
successful no-result (`Ok(None)`), not an error. -/
theorem scan_path_blank_ok (w : SysWorld) (path : String) (scanId : Option String)
    (h : ∀ c ∈ path.data, c.isWhitespace = true) :
    scan_path w path scanId = Except.ok none := by
  have hdw : path.data.dropWhile Char.isWhitespace = [] := by
    rw [List.dropWhile_eq_nil_iff]
    exact h
  simp [scan_path, trimStr, trimChars, dropLeadingWS, hdw, dropTrailingWS]

/-- Witness for the C9 theorem: a two-space input against a world where
nothing resolves. -/
theorem scan_path_blank_ok_witness :
    (∀ c ∈ blankPath.data, c.isWhitespace = true) ∧
    scan_path trivialWorld blankPath none = Except.ok none :=
  ⟨by decide, scan_path_blank_ok trivialWorld blankPath none (by decide)⟩

/-! ## RecentStore: sanitize, load, save -/

theorem string_eq_of_data {a b : String} (h : a.data = b.data) : a = b := by
  cases a; cases b; exact congrArg String.mk h

theorem dropWhile_ws_idem (l : List Char) :
    (l.dropWhile Char.isWhitespace).dropWhile Char.isWhitespace = l.dropWhile Char.isWhitespace := by
  induction l with
  | nil => rfl
  | cons c rest ih =>
    cases hc : c.isWhitespace with
    | true => simp [List.dropWhile_cons, hc, ih]
    | false => simp [List.dropWhile_cons, hc]

theorem dropTrailingWS_cons_shape (c : Char) (rest : List Char) :
    dropTrailingWS (c :: rest) = [] ∨ ∃ r, dropTrailingWS (c :: rest) = c :: r := by
  cases h1 : (dropTrailingWS rest).isEmpty with
  | true =>
    cases h2 : c.isWhitespace with
    | true => left; simp [dropTrailingWS, h1, h2]
    | false => right; exact ⟨[], by simp [dropTrailingWS, h1, h2]⟩
  | false => right; exact ⟨dropTrailingWS rest, by simp [dropTrailingWS, h1]⟩

theorem dropTrailingWS_idem (l : List Char) :
    dropTrailingWS (dropTrailingWS l) = dropTrailingWS l := by
  induction l with
  | nil => rfl
  | cons c rest ih =>
    cases h1 : (dropTrailingWS rest).isEmpty with
    | true =>
      cases h2 : c.isWhitespace with
      | true => simp [dropTrailingWS, h1, h2]
      | false => simp [dropTrailingWS, h1, h2]
    | false =>
      have h3 : dropTrailingWS (c :: rest) = c :: dropTrailingWS rest := by
        simp [dropTrailingWS, h1]
      rw [h3]
      simp [dropTrailingWS, ih, h1]

theorem mem_dropTrailingWS {a : Char} : ∀ {l : List Char}, a ∈ dropTrailingWS l → a ∈ l := by
  intro l
  induction l with
  | nil => intro h; simp [dropTrailingWS] at h
  | cons c rest ih =>
    intro h
    cases h1 : (dropTrailingWS rest).isEmpty with
    | true =>
      cases h2 : c.isWhitespace with
      | true =>
        rw [show dropTrailingWS (c :: rest) = [] from by simp [dropTrailingWS, h1, h2]] at h
        simp at h
      | false =>
        rw [show dropTrailingWS (c :: rest) = [c] from by simp [dropTrailingWS, h1, h2]] at h
        simp at h
        simp [h]
    | false =>
      rw [show dropTrailingWS (c :: rest) = c :: dropTrailingWS rest from by
        simp [dropTrailingWS, h1]] at h
      rcases List.mem_cons.mp h with h | h
      · simp [h]
      · exact List.mem_cons_of_mem _ (ih h)

theorem dropWhile_ws_dropTrailingWS {l : List Char}
    (hl : l.dropWhile Char.isWhitespace = l) :
    (dropTrailingWS l).dropWhile Char.isWhitespace = dropTrailingWS l := by
  cases l with
  | nil => rfl
  | cons c rest =>
    have hc : c.isWhitespace = false := by
      cases hc2 : c.isWhitespace with
      | false => rfl
      | true =>
        rw [List.dropWhile_cons, if_pos hc2] at hl
        have h1 := congrArg List.length hl
        have h2 := (List.dropWhile_sublist (l := rest) Char.isWhitespace).length_le
        simp at h1
        omega
    rcases dropTrailingWS_cons_shape c rest with h | ⟨r, h⟩
    · simp [h]
    · rw [h, List.dropWhile_cons, if_neg (by simp [hc])]

theorem trimChars_idem (l : List Char) : trimChars (trimChars l) = trimChars l := by
  unfold trimChars dropLeadingWS
  rw [dropWhile_ws_dropTrailingWS (dropWhile_ws_idem l), dropTrailingWS_idem]

theorem mem_trimChars {a : Char} {l : List Char} (h : a ∈ trimChars l) : a ∈ l := by
  unfold trimChars dropLeadingWS at h
  exact (List.dropWhile_sublist _).subset (mem_dropTrailingWS h)

/-- Structural facts about the value built inside `sanitize_recent_entry`:
no newline or carriage return survives, trimming is idempotent on it, and
stripping newlines again is the identity. -/
theorem sanitize_core_props (v : List Char) :
    '\n' ∉ trimChars (stripNlCr v) ∧ '\r' ∉ trimChars (stripNlCr v) ∧
    trimChars (trimChars (stripNlCr v)) = trimChars (stripNlCr v) ∧
    stripNlCr (trimChars (stripNlCr v)) = trimChars (stripNlCr v) := by
  have hnl : '\n' ∉ trimChars (stripNlCr v) := by
    intro hmem
    have h2 := mem_trimChars hmem
    simp [stripNlCr, List.mem_filter] at h2
  have hcr : '\r' ∉ trimChars (stripNlCr v) := by
    intro hmem
    have h2 := mem_trimChars hmem
    simp [stripNlCr, List.mem_filter] at h2
  refine ⟨hnl, hcr, trimChars_idem _, ?_⟩
  have hfn : (trimChars (stripNlCr v)).filter (fun c => c != '\n') = trimChars (stripNlCr v) :=
    List.filter_eq_self.mpr (fun a ha => bne_iff_ne.mpr (fun hh => hnl (hh ▸ ha)))
  have hfr : (trimChars (stripNlCr v)).filter (fun c => c != '\r') = trimChars (stripNlCr v) :=
    List.filter_eq_self.mpr (fun a ha => bne_iff_ne.mpr (fun hh => hcr (hh ▸ ha)))
  show ((trimChars (stripNlCr v)).filter (fun c => c != '\n')).filter (fun c => c != '\r') =
    trimChars (stripNlCr v)
  rw [hfn, hfr]

/-- A sanitized entry is a fixed point of `sanitize_recent_entry` and is
nonempty with no embedded newlines. -/
theorem sanitize_some_props {s e : String} (h : sanitize_recent_entry s = some e) :
    sanitize_recent_entry e = some e ∧ e.data ≠ [] ∧ '\n' ∉ e.data ∧ '\r' ∉ e.data := by
  simp only [sanitize_recent_entry] at h
  split at h
  next => exact absurd h (by simp)
  next h1 =>
    split at h
    next h2 => exact absurd h (by simp)
    next h2 =>
      have he := Option.some.inj h
      obtain ⟨hnl, hcr, hidem, hstrip⟩ := sanitize_core_props (trimStr s).data
      have hedata : e.data = trimChars (stripNlCr (trimStr s).data) := by
        rw [← he]; rfl
      have hne : e.data ≠ [] := by
        intro hnil
        apply h2
        show (trimChars (stripNlCr (trimStr s).data)).isEmpty = true
        rw [← hedata, hnil]
        rfl
      refine ⟨?_, hne, by rw [hedata]; exact hnl, by rw [hedata]; exact hcr⟩
      have htrim : trimChars e.data = e.data := by
        rw [hedata]; exact hidem
      have hstrip2 : stripNlCr e.data = e.data := by
        rw [hedata]; exact hstrip
      simp only [sanitize_recent_entry]
      have hcond : ¬((trimStr e).data.isEmpty = true) := by
        show ¬((trimChars e.data).isEmpty = true)
        rw [htrim]
        simp [hne]
      have hw : trimStr (String.mk (stripNlCr (trimStr e).data)) = e := by
        apply string_eq_of_data
        show trimChars (stripNlCr (trimChars e.data)) = e.data
        rw [htrim, hstrip2, htrim]
      rw [if_neg hcond, hw, if_neg (by simp [hne])]

theorem dedupAppend_nodup_fix {acc : List String} (line : String)
    (h1 : acc.Nodup) (h2 : ∀ e ∈ acc, sanitize_recent_entry e = some e) :
    (dedupAppend acc line).Nodup ∧ ∀ e ∈ dedupAppend acc line, sanitize_recent_entry e = some e := by
  unfold dedupAppend
  cases hs : sanitize_recent_entry line with
  | none => exact ⟨h1, h2⟩
  | some e =>
    show (if e ∈ acc then acc else acc ++ [e]).Nodup ∧
      ∀ x ∈ (if e ∈ acc then acc else acc ++ [e]), sanitize_recent_entry x = some x
    by_cases he : e ∈ acc
    · rw [if_pos he]; exact ⟨h1, h2⟩
    · rw [if_neg he]
      constructor
      · rw [List.nodup_append]
        exact ⟨h1, List.nodup_singleton e, fun a ha hae => he ((List.mem_singleton.mp hae) ▸ ha)⟩
      · intro x hx
        rcases List.mem_append.mp hx with hx | hx
        · exact h2 x hx
        · have hxe : x = e := by simpa using hx
          rw [hxe]
          exact (sanitize_some_props hs).1

theorem foldl_dedupAppend_inv (lines : List String) :
    ∀ acc : List String, acc.Nodup → (∀ e ∈ acc, sanitize_recent_entry e = some e) →
      (lines.foldl dedupAppend acc).Nodup ∧
        ∀ e ∈ lines.foldl dedupAppend acc, sanitize_recent_entry e = some e := by
  induction lines with
  | nil => intro acc h1 h2; exact ⟨h1, h2⟩
  | cons line rest ih =>
    intro acc h1 h2
    rw [List.foldl_cons]
    obtain ⟨h3, h4⟩ := dedupAppend_nodup_fix line h1 h2
    exact ih _ h3 h4

/-- Every list `load_recent_from_disk` produces is duplicate-free and
consists of sanitized entries, whatever the file contains. -/
theorem load_recent_inv (disk : Option String) :
    (load_recent_from_disk disk).Nodup ∧
      ∀ e ∈ load_recent_from_disk disk, sanitize_recent_entry e = some e := by
  cases disk with
  | none => simp [load_recent_from_disk]
  | some content =>
    exact foldl_dedupAppend_inv (rustLines content) [] (by simp) (by simp)

theorem splitNlAux_no_nl : ∀ (w : List Char), '\n' ∉ w →
    ∀ rest acc, splitNlAux (w ++ rest) acc = splitNlAux rest (w.reverse ++ acc) := by
  intro w
  induction w with
  | nil => intro _ rest acc; simp
  | cons c w2 ih =>
    intro hw rest acc
    have hc : ¬(c = '\n') := fun hh => hw (by simp [hh])
    have hw2 : '\n' ∉ w2 := fun hh => hw (List.mem_cons_of_mem _ hh)
    rw [List.cons_append,
      show splitNlAux (c :: (w2 ++ rest)) acc = splitNlAux (w2 ++ rest) (c :: acc) from by
        simp [splitNlAux, hc],
      ih hw2 rest (c :: acc)]
    simp

theorem splitNlAux_nl (rest acc : List Char) :
    splitNlAux ('\n' :: rest) acc = acc.reverse :: splitNlAux rest [] := by
  simp [splitNlAux]

theorem splitNlAux_join : ∀ (entries : List String), entries ≠ [] →
    (∀ e ∈ entries, '\n' ∉ e.data) →
    splitNlAux ((joinNl entries).data ++ ['\n']) [] = entries.map String.data ++ [[]] := by
  intro entries
  induction entries with
  | nil => intro hne _; exact absurd rfl hne
  | cons e rest ih =>
    intro _ he
    have h1 : '\n' ∉ e.data := he e (by simp)
    cases rest with
    | nil =>
      rw [show joinNl [e] = e from rfl, splitNlAux_no_nl e.data h1 ['\n'] [], splitNlAux_nl]
      simp [splitNlAux]
    | cons e2 rest2 =>
      rw [show joinNl (e :: e2 :: rest2) = e ++ nlStr ++ joinNl (e2 :: rest2) from rfl,
        String.data_append, String.data_append, show nlStr.data = ['\n'] from rfl]
      simp only [List.append_assoc, List.singleton_append, List.cons_append, List.nil_append]
      rw [splitNlAux_no_nl e.data h1 _ [], splitNlAux_nl,
        ih (by simp) (fun x hx => he x (List.mem_cons_of_mem _ hx))]
      simp

theorem mem_of_getLast?_eq {l : List Char} {a : Char} (h : l.getLast? = some a) : a ∈ l := by
  cases l with
  | nil => simp at h
  | cons c rest =>
    rw [List.getLast?_eq_getLast _ (by simp)] at h
    simp only [Option.some.injEq] at h
    rw [← h]
    exact List.getLast_mem _

theorem rustLines_save (entries : List String)
    (hprops : ∀ e ∈ entries, e.data ≠ [] ∧ '\n' ∉ e.data ∧ '\r' ∉ e.data) :
    rustLines (save_recent_to_disk entries) = entries := by
  cases entries with
  | nil => rfl
  | cons e rest =>
    have hsave : (save_recent_to_disk (e :: rest)).data = (joinNl (e :: rest)).data ++ ['\n'] := by
      unfold save_recent_to_disk
      rw [if_neg (by simp)]
      rw [String.data_append]
      rfl
    simp only [rustLines]
    rw [hsave, splitNlAux_join (e :: rest) (by simp) (fun x hx => (hprops x hx).2.1),
      List.getLast?_concat, if_pos rfl, List.dropLast_concat, List.map_map]
    have hmap : ∀ x ∈ e :: rest,
        ((fun l => String.mk (stripTrailingCr l)) ∘ String.data) x = id x := by
      intro x hx
      have h3 := (hprops x hx).2.2
      have h4 : stripTrailingCr x.data = x.data := by
        unfold stripTrailingCr
        rw [if_neg]
        intro hlast
        exact h3 (mem_of_getLast?_eq hlast)
      show String.mk (stripTrailingCr x.data) = x
      exact string_eq_of_data (by rw [h4])
    rw [List.map_congr_left hmap, List.map_id]

theorem foldl_dedupAppend_id : ∀ (entries : List String) (acc : List String),
    (∀ e ∈ entries, sanitize_recent_entry e = some e) → (acc ++ entries).Nodup →
    entries.foldl dedupAppend acc = acc ++ entries := by
  intro entries
  induction entries with
  | nil => intro acc _ _; simp
  | cons e rest ih =>
    intro acc hfx hnd
    rw [List.foldl_cons]
    have he : sanitize_recent_entry e = some e := hfx e (by simp)
    have hem : e ∉ acc := by
      intro hmem
      exact (List.nodup_append.mp hnd).2.2 hmem (by simp)
    have hd : dedupAppend acc e = acc ++ [e] := by
      unfold dedupAppend
      rw [he]
      show (if e ∈ acc then acc else acc ++ [e]) = acc ++ [e]
      rw [if_neg hem]
    rw [hd, ih (acc ++ [e]) (fun x hx => hfx x (List.mem_cons_of_mem _ hx)) (by simpa using hnd)]
    simp

/-- Round trip: a list of sanitized, duplicate-free entries survives
`save_recent_to_disk` followed by `load_recent_from_disk` unchanged. -/
theorem load_save_roundtrip (entries : List String)
    (hfix : ∀ e ∈ entries, sanitize_recent_entry e = some e) (hnd : entries.Nodup) :
    load_recent_from_disk (some (save_recent_to_disk entries)) = entries := by
  simp only [load_recent_from_disk]
  rw [rustLines_save entries (fun e he2 =>
    ⟨(sanitize_some_props (hfix e he2)).2.1, (sanitize_some_props (hfix e he2)).2.2.1,
      (sanitize_some_props (hfix e he2)).2.2.2⟩)]
  rw [foldl_dedupAppend_id entries [] hfix (by simpa using hnd)]
  simp

/-- Functional characterization of `record_recent_path`: the new persisted
list is the sanitized path in front of the old list minus any occurrence of
it, truncated to the limit. -/
theorem record_recent_spec (disk : Option String) (p q : String)
    (h : sanitize_recent_entry p = some q) :
    load_recent_from_disk (record_recent_path disk p) =
      (q :: (load_recent_from_disk disk).filter (fun e => e != q)).take RECENT_LIMIT_DEFAULT := by
  obtain ⟨hnd, hfx⟩ := load_recent_inv disk
  have hq := (sanitize_some_props h).1
  have hnd2 : (q :: (load_recent_from_disk disk).filter (fun e => e != q)).Nodup := by
    rw [List.nodup_cons]
    refine ⟨fun hqm => ?_, hnd.filter _⟩
    have h2 := (List.mem_filter.mp hqm).2
    simp at h2
  have hfx2 : ∀ e ∈ (q :: (load_recent_from_disk disk).filter (fun e => e != q)).take RECENT_LIMIT_DEFAULT,
      sanitize_recent_entry e = some e := by
    intro e he2
    rcases List.mem_cons.mp (List.take_subset _ _ he2) with rfl | hmem
    · exact hq
    · exact hfx e (List.mem_filter.mp hmem).1
  simp only [record_recent_path, h]
  exact load_save_roundtrip _ hfx2 (List.Nodup.sublist (List.take_sublist _ _) hnd2)

/-- Counterexample to C4 as stated: the non-blank absolute path `"/a "`
(trailing space) is sanitized before being recorded (lib.rs:151), so the
first element returned by a subsequent load is `"/a"`, not the path that
was passed in. -/
theorem record_first_claim_fails :
    (trimStr pathWithSpace).data ≠ [] ∧
    (get_recent_paths (record_recent_path none pathWithSpace) (some 1)).head? ≠ some pathWithSpace := by
  exact ⟨by decide, by decide⟩

/-- C4 (amended): for every path that is itself in sanitized form (no
surrounding whitespace, no embedded newline — `sanitize_recent_entry`
returns it unchanged; the counterexample shows the sanitization step makes
the unrestricted claim fail), recording it and loading with any limit ≥ 1
yields it as the first element, and recording it twice leaves exactly one
occurrence, still first. -/
theorem record_then_load_first (disk : Option String) (p : String) (n : Nat)
    (hp : sanitize_recent_entry p = some p) (hn : 1 ≤ n) :
    (get_recent_paths (record_recent_path disk p) (some n)).head? = some p ∧
    (load_recent_from_disk (record_recent_path (record_recent_path disk p) p)).count p = 1 ∧
    (load_recent_from_disk (record_recent_path (record_recent_path disk p) p)).head? = some p := by
  have h1 := record_recent_spec disk p p hp
  have h2 := record_recent_spec (record_recent_path disk p) p p hp
  refine ⟨?_, ?_, ?_⟩
  · simp only [get_recent_paths]
    rw [if_pos (by omega), h1,
      show RECENT_LIMIT_DEFAULT = 19 + 1 from rfl, List.take_succ_cons]
    cases n with
    | zero => omega
    | succ m => rw [List.take_succ_cons]; rfl
  · rw [h2, show RECENT_LIMIT_DEFAULT = 19 + 1 from rfl, List.take_succ_cons,
      List.count_cons_self]
    have hz : (((load_recent_from_disk (record_recent_path disk p)).filter
        (fun e => e != p)).take 19).count p = 0 := by
      rw [List.count_eq_zero]
      intro hmem
      have h3 := (List.mem_filter.mp (List.take_subset _ _ hmem)).2
      simp at h3
    rw [hz]
  · rw [h2, show RECENT_LIMIT_DEFAULT = 19 + 1 from rfl, List.take_succ_cons]
    rfl

/-- Witness for the C4 theorem at path `/a` on an empty store with limit 1. -/
theorem record_then_load_first_witness :
    (sanitize_recent_entry pathSlashA = some pathSlashA ∧ 1 ≤ 1) ∧
    (get_recent_paths (record_recent_path none pathSlashA) (some 1)).head? = some pathSlashA :=
  ⟨⟨by decide, by decide⟩,
    (record_then_load_first none pathSlashA 1 (by decide) (by decide)).1⟩

/-- C5: after recording any path that sanitizes to a value `q`, the persisted
list has at most 20 entries (the configured maximum, `RECENT_LIMIT_DEFAULT`),
no duplicates and no blank entries; and when the list already held 20
distinct entries not containing `q`, the least-recently-used (last) one is
dropped. -/
theorem record_invariants (disk : Option String) (p q : String)
    (h : sanitize_recent_entry p = some q) :
    (load_recent_from_disk (record_recent_path disk p)).length ≤ RECENT_LIMIT_DEFAULT ∧
    (load_recent_from_disk (record_recent_path disk p)).Nodup ∧
    (∀ e ∈ load_recent_from_disk (record_recent_path disk p),
      sanitize_recent_entry e = some e ∧ (trimStr e).data ≠ []) ∧
    ((load_recent_from_disk disk).length = RECENT_LIMIT_DEFAULT →
      q ∉ load_recent_from_disk disk →
      load_recent_from_disk (record_recent_path disk p) =
        q :: (load_recent_from_disk disk).dropLast) := by
  have hspec := record_recent_spec disk p q h
  obtain ⟨hnd, hfx⟩ := load_recent_inv disk
  refine ⟨?_, ?_, ?_, ?_⟩
  · rw [hspec]; exact List.length_take_le _ _
  · rw [hspec]
    apply List.Nodup.sublist (List.take_sublist _ _)
    rw [List.nodup_cons]
    refine ⟨fun hqm => ?_, hnd.filter _⟩
    have h2 := (List.mem_filter.mp hqm).2
    simp at h2
  · intro e he2
    rw [hspec] at he2
    have hefix : sanitize_recent_entry e = some e := by
      rcases List.mem_cons.mp (List.take_subset _ _ he2) with rfl | hmem
      · exact (sanitize_some_props h).1
      · exact hfx e (List.mem_filter.mp hmem).1
    refine ⟨hefix, ?_⟩
    intro htr
    have hnone : sanitize_recent_entry e = none := by
      simp [sanitize_recent_entry, htr]
    rw [hefix] at hnone
    simp at hnone
  · intro hlen hqm
    rw [hspec]
    have hfilter : (load_recent_from_disk disk).filter (fun e => e != q) =
        load_recent_from_disk disk :=
      List.filter_eq_self.mpr (fun a ha => bne_iff_ne.mpr (fun hh => hqm (hh ▸ ha)))
    rw [hfilter, show RECENT_LIMIT_DEFAULT = 19 + 1 from rfl, List.take_succ_cons]
    congr 1
    rw [List.dropLast_eq_take, hlen]
    rfl

/-- Witness for the C5 theorem: recording `/a` on an empty store. -/
theorem record_invariants_witness :
    sanitize_recent_entry pathSlashA = some pathSlashA ∧
    (load_recent_from_disk (record_recent_path none pathSlashA)).length ≤ RECENT_LIMIT_DEFAULT :=
  ⟨by decide, (record_invariants none pathSlashA pathSlashA (by decide)).1⟩

/-! ## DirectoryScanner -/

theorem progressOnly_rfl (a : ScanSt) : ProgressOnly a a :=
  ⟨[], by simp, by simp⟩

theorem progressOnly_of_events_eq {a b : ScanSt} (h : b.events = a.events) : ProgressOnly a b :=
  ⟨[], by simp [h], by simp⟩

theorem progressOnly_trans {a b c : ScanSt} :
    ProgressOnly a b → ProgressOnly b c → ProgressOnly a c := by
  rintro ⟨l1, h1, p1⟩ ⟨l2, h2, p2⟩
  exact ⟨l1 ++ l2, by rw [h2, h1, List.append_assoc],
    fun e he => (List.mem_append.mp he).elim (p1 e) (p2 e)⟩

theorem goodFiles_rfl (sep : Char) (a : ScanSt) : GoodFiles sep a a :=
  ⟨[], by simp, by simp⟩

theorem goodFiles_of_files_eq {sep : Char} {a b : ScanSt} (h : b.files = a.files) :
    GoodFiles sep a b :=
  ⟨[], by simp [h], by simp⟩

theorem goodFiles_trans {sep : Char} {a b c : ScanSt} :
    GoodFiles sep a b → GoodFiles sep b c → GoodFiles sep a c := by
  rintro ⟨l1, h1, p1⟩ ⟨l2, h2, p2⟩
  exact ⟨l1 ++ l2, by rw [h2, h1, List.append_assoc],
    fun f hf => (List.mem_append.mp hf).elim (p1 f) (p2 f)⟩

theorem checkpoint_files (oracle : Nat → Bool) (scanId : Option String) (st : ScanSt)
    (path : String) : (checkpoint oracle scanId st path).files = st.files := by
  unfold checkpoint
  split <;> rfl

theorem checkpoint_progressOnly (oracle : Nat → Bool) (scanId : Option String) (st : ScanSt)
    (path : String) : ProgressOnly st (checkpoint oracle scanId st path) := by
  unfold checkpoint
  split
  · exact ⟨[mkProgressEvent scanId st path], rfl, by
      intro e he
      simp at he
      rw [he]
      rfl⟩
  · exact progressOnly_of_events_eq rfl

theorem popBook_files (oracle : Nat → Bool) (scanId : Option String) (sep : Char) (root : String)
    (rel : List String) (st : ScanSt) :
    (popBook oracle scanId sep root rel st).files = st.files := by
  unfold popBook
  rw [checkpoint_files]

theorem popBook_progressOnly (oracle : Nat → Bool) (scanId : Option String) (sep : Char)
    (root : String) (rel : List String) (st : ScanSt) :
    ProgressOnly st (popBook oracle scanId sep root rel st) := by
  unfold popBook
  exact progressOnly_trans (progressOnly_of_events_eq rfl) (checkpoint_progressOnly _ _ _ _)

theorem popBook_goodFiles (oracle : Nat → Bool) (scanId : Option String) (sep : Char)
    (root : String) (rel : List String) (st : ScanSt) :
    GoodFiles sep st (popBook oracle scanId sep root rel st) :=
  goodFiles_of_files_eq (popBook_files oracle scanId sep root rel st)

/-- Loop invariant of the walk: only `progress` events, and only files with
root-relative backslash-rewritten virtual paths, are appended. -/
theorem scanDir_inv (oracle : Nat → Bool) (scanId : Option String) (sep : Char) (root : String) :
    ∀ (rel : List String) (es : List FSEntry) (stack : List (List String × List FSEntry))
      (st : ScanSt),
      ProgressOnly st (scanDir oracle scanId sep root rel es stack st) ∧
      GoodFiles sep st (scanDir oracle scanId sep root rel es stack st) := by
  intro rel es stack st
  induction rel, es, stack, st using scanDir.induct oracle scanId sep root with
  | case1 x st =>
    simp only [scanDir]
    exact ⟨progressOnly_rfl _, goodFiles_rfl _ _⟩
  | case2 x rel2 es2 stack st ih =>
    simp only [scanDir]
    exact ⟨progressOnly_trans (popBook_progressOnly _ _ _ _ _ _) ih.1,
      goodFiles_trans (popBook_goodFiles _ _ _ _ _ _) ih.2⟩
  | case3 rel nm es rest stack st st1 ih =>
    simp only [scanDir]
    exact ⟨progressOnly_trans (checkpoint_progressOnly _ _ _ _) ih.1,
      goodFiles_trans (goodFiles_of_files_eq (checkpoint_files _ _ _ _)) ih.2⟩
  | case4 rel nm rest stack st ih =>
    simp only [scanDir]
    exact ih
  | case5 rel nm rest stack st st1 hnone ih =>
    simp only [scanDir, hnone]
    refine ⟨progressOnly_trans ?_ ih.1, goodFiles_trans ?_ ih.2⟩
    · exact progressOnly_trans (progressOnly_of_events_eq rfl) (checkpoint_progressOnly _ _ _ _)
    · exact goodFiles_of_files_eq (by rw [checkpoint_files])
  | case6 rel nm rest stack st st1 cat hcat st2 vp ap st3 ih =>
    simp only [scanDir, hcat]
    refine ⟨progressOnly_trans ?_ ih.1, goodFiles_trans ?_ ih.2⟩
    · exact progressOnly_trans (progressOnly_of_events_eq rfl) (checkpoint_progressOnly _ _ _ _)
    · refine ⟨[⟨rustReplaceBackslash (relString sep (rel ++ [nm])),
        absPathOf sep root (rel ++ [nm]), cat⟩], by rw [checkpoint_files], ?_⟩
      intro f hf
      simp at hf
      rw [hf]
      exact ⟨rel ++ [nm], by simp, rfl⟩

theorem replaceBackslashChar_ne (c : Char) : replaceBackslashChar c ≠ '\\' := by
  unfold replaceBackslashChar
  split
  · decide
  · assumption

theorem noBackslash_rustReplace (s : String) : noBackslashStr (rustReplaceBackslash s) := by
  intro c hc
  simp only [rustReplaceBackslash, List.mem_map] at hc
  obtain ⟨c2, -, heq⟩ := hc
  rw [← heq]
  exact replaceBackslashChar_ne c2

theorem rustReplaceBackslash_append (a b : String) :
    rustReplaceBackslash (a ++ b) = rustReplaceBackslash a ++ rustReplaceBackslash b := by
  apply string_eq_of_data
  simp [rustReplaceBackslash, String.data_append]

theorem rustReplaceBackslash_sep {sep : Char} (h : sep = '/' ∨ sep = '\\') :
    rustReplaceBackslash (String.singleton sep) = String.singleton '/' := by
  rcases h with rfl | rfl <;> decide

/-- Under either host separator, rewriting backslashes turns a
separator-joined component list into a `/`-joined one. -/
theorem replace_relString (sep : Char) (h : sep = '/' ∨ sep = '\\') :
    ∀ comps : List String,
      rustReplaceBackslash (relString sep comps) =
        relString '/' (comps.map rustReplaceBackslash) := by
  intro comps
  induction comps with
  | nil =>
    simp only [relString, List.map_nil]
    decide
  | cons s rest ih =>
    cases rest with
    | nil => simp [relString]
    | cons s2 rest2 =>
      rw [show relString sep (s :: s2 :: rest2) =
          s ++ String.singleton sep ++ relString sep (s2 :: rest2) from rfl,
        rustReplaceBackslash_append, rustReplaceBackslash_append,
        rustReplaceBackslash_sep h, ih,
        show (s :: s2 :: rest2).map rustReplaceBackslash =
          rustReplaceBackslash s :: (s2 :: rest2).map rustReplaceBackslash from rfl]
      rfl

theorem usesSlash_of_replace (sep : Char) (h : sep = '/' ∨ sep = '\\') (comps : List String)
    (hne : comps ≠ []) : usesSlashSep (rustReplaceBackslash (relString sep comps)) := by
  refine ⟨comps.map rustReplaceBackslash, by simpa using hne, replace_relString sep h comps, ?_⟩
  intro x hx
  obtain ⟨y, -, rfl⟩ := List.mem_map.mp hx
  exact noBackslash_rustReplace y

/-- C1: the file list returned by a scan is sorted ascending by
`virtual_path`, and every `virtual_path` contains no backslash — for every
tree, every listing order, every timing oracle and every separator; under
either real host separator (`/` or `\`) every `virtual_path` is moreover a
`/`-joined sequence of backslash-free components. -/
theorem scan_sorted_and_slash (oracle : Nat → Bool) (sep : Char) (scanId : Option String)
    (root : String) (entries : List FSEntry) :
    List.Sorted vpLe (scan_supported_files oracle sep scanId root entries).1 ∧
    (∀ f ∈ (scan_supported_files oracle sep scanId root entries).1,
      noBackslashStr f.virtual_path) ∧
    ((sep = '/' ∨ sep = '\\') →
      ∀ f ∈ (scan_supported_files oracle sep scanId root entries).1,
        usesSlashSep f.virtual_path) := by
  have hgf := (scanDir_inv oracle scanId sep root [] [] [([], entries)]
    ⟨0, 0, 0, [], [⟨scanId, stageStart, 0, 0, 0, root⟩], 0⟩).2
  obtain ⟨l, hfiles, hl⟩ := hgf
  have hmem : ∀ f ∈ (scan_supported_files oracle sep scanId root entries).1,
      ∃ comps : List String, comps ≠ [] ∧
        f.virtual_path = rustReplaceBackslash (relString sep comps) := by
    intro f hf
    simp only [scan_supported_files, List.mem_insertionSort] at hf
    rw [hfiles] at hf
    simp at hf
    exact hl f hf
  refine ⟨?_, ?_, ?_⟩
  · simp only [scan_supported_files]
    exact List.sorted_insertionSort vpLe _
  · intro f hf
    obtain ⟨comps, -, hvp⟩ := hmem f hf
    rw [hvp]
    exact noBackslash_rustReplace _
  · intro hsep f hf
    obtain ⟨comps, hne, hvp⟩ := hmem f hf
    rw [hvp]
    exact usesSlash_of_replace sep hsep comps hne

/-- Witness for the C1 theorem: the separator hypothesis discharged at
`'/'`, on a one-file tree. -/
theorem scan_sorted_and_slash_witness :
    ('/' = '/' ∨ '/' = '\\') ∧
    (∀ f ∈ (scan_supported_files oracleNever '/' none rootR treeOneMd).1,
      usesSlashSep f.virtual_path) :=
  ⟨Or.inl rfl,
    (scan_sorted_and_slash oracleNever '/' none rootR treeOneMd).2.2 (Or.inl rfl)⟩

theorem countP_progress_zero (p : String) (hp : (stageProgress == p) = false)
    (mid : List ScanEvent) (h : ∀ e ∈ mid, e.stage = stageProgress) :
    mid.countP (fun e => e.stage == p) = 0 := by
  rw [List.countP_eq_zero]
  intro e he
  rw [h e he, hp]
  simp

/-- C3: every scan emits exactly one `start` event first and exactly one
`done` event last, with only `progress` events (zero or more) strictly
between them, for every tree, listing order and timing oracle; and a scan
of an empty directory returns an empty file list. -/
theorem scan_event_protocol (oracle : Nat → Bool) (sep : Char) (scanId : Option String)
    (root : String) (entries : List FSEntry) :
    (∃ e0 mid e1, (scan_supported_files oracle sep scanId root entries).2 = e0 :: (mid ++ [e1]) ∧
      e0.stage = stageStart ∧ e1.stage = stageDone ∧ ∀ e ∈ mid, e.stage = stageProgress) ∧
    ((scan_supported_files oracle sep scanId root entries).2.countP
        (fun e => e.stage == stageStart) = 1 ∧
      (scan_supported_files oracle sep scanId root entries).2.countP
        (fun e => e.stage == stageDone) = 1) ∧
    (scan_supported_files oracle sep scanId root []).1 = [] := by
  set stF := scanDir oracle scanId sep root [] [] [([], entries)]
    ⟨0, 0, 0, [], [⟨scanId, stageStart, 0, 0, 0, root⟩], 0⟩ with hstF
  obtain ⟨l, hev, hprog⟩ := (scanDir_inv oracle scanId sep root [] [] [([], entries)]
    ⟨0, 0, 0, [], [⟨scanId, stageStart, 0, 0, 0, root⟩], 0⟩).1
  rw [← hstF] at hev
  have hsh : (scan_supported_files oracle sep scanId root entries).2 =
      (⟨scanId, stageStart, 0, 0, 0, root⟩ : ScanEvent) ::
        (l ++ [⟨scanId, stageDone, stF.scannedDirs, stF.scannedFiles,
          stF.matchedFiles, root⟩]) := by
    simp only [scan_supported_files]
    rw [← hstF, hev]
    simp
  refine ⟨⟨_, l, _, hsh, rfl, rfl, hprog⟩, ⟨?_, ?_⟩, ?_⟩
  · rw [hsh, List.countP_cons, List.countP_append, List.countP_cons, List.countP_nil,
      countP_progress_zero stageStart (by decide) l hprog]
    simp [stageStart, stageDone]
  · rw [hsh, List.countP_cons, List.countP_append, List.countP_cons, List.countP_nil,
      countP_progress_zero stageDone (by decide) l hprog]
    simp [stageStart, stageDone]
  · simp only [scan_supported_files, scanDir, popBook_files]
    simp [List.insertionSort]

end Rustreader
